import Mathlib

/-!
Verification of the CLI engine (`lib/cli-engine.js`): file discovery,
exclusion filtering, per-file processing and result aggregation.

External collaborators (the `fs` and `path` modules, `minimatch`, the
`Config` helper, the stateful `eslint` verification engine, the `traverse`
tree walker and the `rules` registry) are modelled as an explicit
environment of functions; the engine's own logic is embedded directly
from the source.
-/

/-- A linting warning or error (`LintMessage` typedef): `fatal` flag and
display `message`. -/
structure LintMessage where
  fatal : Bool
  message : String
deriving DecidableEq

/-- A linting result (`LintResult` typedef): the `filePath` that was linted
and all of its `messages`. -/
structure LintResult where
  filePath : String
  messages : List LintMessage
deriving DecidableEq

/-- The report returned by `executeOnFiles`: `{ results: results }`. -/
structure RunReport where
  results : List LintResult
deriving DecidableEq

/-- The options recognized by the engine, with the values of
`defaultOptions` as field defaults (the constructor merges the caller's
options over `defaultOptions`; the `rules` mapping is consumed only by the
external `Config` collaborator and is not needed here). -/
structure CLIOptions where
  configFile : Option String := none
  reset : Bool := false
  rulePaths : List String := []
  useEslintrc : Bool := true
  envs : List String := []
  globals : List String := []
  ignore : Bool := true
  ignorePath : Option String := none

/-- Observable calls made to the File Processor and to the stateful
verification engine (`eslint.reset()` / `eslint.verify(...)`) during a run,
recorded in encounter order. -/
inductive EngineEvent where
  | reset : EngineEvent
  | verify : String → EngineEvent
  | procFile : String → EngineEvent
deriving DecidableEq

/-- The external collaborators of the engine, over an engine-state type `σ`
and a configuration-object type `κ`:
`mm name pattern` is `minimatch(name, pattern)`; `extname` is
`path.extname`; `resolve` is `path.resolve`; `existsSync` and `readFile`
are the `fs` calls; `getConfig` and `exclusions` are
`configHelper.getConfig` / `configHelper.getExclusions()`; `resetState` is
the engine state right after `eslint.reset()`; `verify st text config name`
is `eslint.verify(text, config, name)` run from state `st`, returning the
messages and the post-call state; `expand` is the flat file list produced
by `traverse` for the given input paths. -/
structure Env (σ κ : Type) where
  mm : String → String → Bool
  extname : String → String
  resolve : String → String
  existsSync : String → Bool
  readFile : String → String
  getConfig : String → κ
  exclusions : List String
  resetState : σ
  verify : σ → String → κ → String → List LintMessage × σ
  expand : List String → List String

/-- Replace the first occurrence of character `c` by `r` (the semantics of
JavaScript `String.prototype.replace` with the one-character string pattern
`"\\"`: only the first occurrence is replaced). -/
def replaceFirstChar (c r : Char) : List Char → List Char
  | [] => []
  | x :: xs => if x = c then r :: xs else x :: replaceFirstChar c r xs

/-- `name.replace("\\", "/")` from `isExcluded`: replaces the first
backslash (and only the first) by a forward slash. -/
def normalizeName (s : String) : String :=
  ⟨replaceFirstChar '\\' '/' s.data⟩

/-- `isExcluded(name, exclude)` (lib/cli-engine.js lines 74-81): normalize
the name, then return whether some exclusion pattern matches it under the
matcher `mm` (`minimatch`). The `debug` call is pure logging and is not
modelled. -/
def isExcluded (mm : String → String → Bool) (name : String) (exclude : List String) : Bool :=
  exclude.any fun exclusion => mm (normalizeName name) exclusion

/-- The fatal message produced for a missing file: the literal string
built from the resolved path. -/
def missingMessage (filePath : String) : String :=
  "Could not find file at '" ++ filePath ++ "'."

/-- `processFile(filename, configHelper)` (lines 90-117): reset the
verification engine, resolve the filename, then either read + verify the
file or produce the single fatal missing-file message; the returned
`LintResult` carries the original `filename`, not the resolved path.
The result is paired with the engine state after the call and the list of
collaborator events it caused (the local `filePath` variable is inlined as
`env.resolve filename`; the incoming engine state is discarded by the
unconditional `eslint.reset()`). -/
def processFile {σ κ : Type} (env : Env σ κ) (_st : σ) (filename : String) :
    LintResult × σ × List EngineEvent :=
  if env.existsSync (env.resolve filename) then
    let vr := env.verify env.resetState (env.readFile (env.resolve filename))
      (env.getConfig (env.resolve filename)) filename
    ({ filePath := filename, messages := vr.1 }, vr.2,
      [EngineEvent.procFile filename, EngineEvent.reset, EngineEvent.verify filename])
  else
    ({ filePath := filename,
       messages := [{ fatal := true, message := missingMessage (env.resolve filename) }] },
      env.resetState, [EngineEvent.procFile filename, EngineEvent.reset])

/-- The advisory result pushed for an explicitly named but ignored file
(lines 187-195). -/
def ignoredResult (filename : String) : LintResult :=
  { filePath := filename,
    messages :=
      [{ fatal := false,
         message := "File ignored because of your .eslintignore file. Use --no-ignore to override." }] }

/-- The body of the `traverse` callback (lines 174-199) for one discovered
`filename`: extension gate, then either process the file, or push the
advisory result when the excluded file was named verbatim in `files`
(`files.indexOf(filename) > -1`), or emit nothing. Returns the pushed
results, the engine state afterwards, and the collaborator events. -/
def handleFile {σ κ : Type} (env : Env σ κ) (ignore : Bool) (files : List String)
    (st : σ) (filename : String) : List LintResult × σ × List EngineEvent :=
  if env.extname filename == ".js" then
    if !ignore || !isExcluded env.mm filename env.exclusions then
      let pr := processFile env st filename
      ([pr.1], pr.2.1, pr.2.2)
    else if files.contains filename then
      ([ignoredResult filename], st, [])
    else
      ([], st, [])
  else
    ([], st, [])

/-- The traversal loop: run the callback over the expanded file list in
order, threading the engine state and concatenating pushed results and
events. -/
def processList {σ κ : Type} (env : Env σ κ) (ignore : Bool) (files : List String) :
    σ → List String → List LintResult × σ × List EngineEvent
  | st, [] => ([], st, [])
  | st, f :: fs =>
    let h := handleFile env ignore files st f
    let rest := processList env ignore files h.2.1 fs
    (h.1 ++ rest.1, rest.2.1, h.2.2 ++ rest.2.2)

/-- `executeOnFiles(files)` (lines 166-204): expand the input paths via
`traverse`, run the callback over each discovered path, and wrap the
collected results as `{ results: results }`; the engine state and event
trace of the run are returned alongside the report. -/
def executeOnFiles {σ κ : Type} (env : Env σ κ) (opts : CLIOptions) (st : σ)
    (files : List String) : RunReport × σ × List EngineEvent :=
  let out := processList env opts.ignore files st (env.expand files)
  ({ results := out.1 }, out.2.1, out.2.2)

/-- `rulePaths.forEach(function(rulesdir) { rules.load(rulesdir); })` with
a fallible `rules.load`: the first load error aborts the loop and
propagates. -/
def loadRulesList {ε : Type} (load : String → Except ε Unit) :
    List String → Except ε Unit
  | [] => Except.ok ()
  | d :: ds =>
    match load d with
    | Except.ok _ => loadRulesList load ds
    | Except.error e => Except.error e

/-- The `CLIEngine(options)` constructor (lines 145-160): store the merged
options (field defaults play the role of `defaultOptions`), then load
every directory of `rulePaths`; a thrown load error propagates to the
caller and no instance is produced. -/
def CLIEngineConstruct {ε : Type} (load : String → Except ε Unit) (opts : CLIOptions) :
    Except ε CLIOptions :=
  match loadRulesList load opts.rulePaths with
  | Except.ok _ => Except.ok opts
  | Except.error e => Except.error e

/-- Literal matching: the behavior of `minimatch(name, pattern)` when the
pattern contains no glob metacharacters — such a pattern matches exactly
the identical string. Used to exhibit concrete runs of `isExcluded`. -/
def litMM (name pattern : String) : Bool :=
  name == pattern

/-- A matcher in which the lone pattern `[` (a malformed character class)
matches nothing and every other pattern matches literally. -/
def mmNoBracket (name pattern : String) : Bool :=
  if pattern = "[" then false else name == pattern

/-- C2 counterexample: `isExcluded` is not invariant under writing the path
with native backslash separators. `name.replace("\\", "/")` replaces only
the first backslash, so `a\b\c.js` is normalized to `a/b\c.js` and fails
to match the pattern `a/b/c.js` under literal matching, while the
forward-slash spelling matches; a path with a single backslash is
normalized fully, showing the intended cross-platform normalization. -/
theorem isExcluded_separator_not_invariant :
    normalizeName "a\\b\\c.js" = "a/b\\c.js"
    ∧ isExcluded litMM "a\\b\\c.js" ["a/b/c.js"] = false
    ∧ isExcluded litMM "a/b/c.js" ["a/b/c.js"] = true
    ∧ isExcluded litMM "a\\b.js" ["a/b.js"] = true := by
  refine ⟨?_, ?_, ?_, ?_⟩ <;> decide

/-- C3: `isExcluded` is a total boolean function, and a pattern that
matches nothing (the modelled behavior of a malformed glob) leaves the
result unchanged wherever it occurs in the pattern list. -/
theorem isExcluded_total_malformed (mm : String → String → Bool) (name bad : String)
    (l1 l2 : List String) (hbad : ∀ s, mm s bad = false) :
    isExcluded mm name (l1 ++ bad :: l2) = isExcluded mm name (l1 ++ l2)
    ∧ (isExcluded mm name (l1 ++ bad :: l2) = true
        ∨ isExcluded mm name (l1 ++ bad :: l2) = false) := by
  constructor
  · simp [isExcluded, List.any_append, List.any_cons, hbad]
  · exact Bool.eq_false_or_eq_true _

/-- Witness for C3 at the malformed pattern `[` inserted in front of a
matching literal pattern. -/
theorem isExcluded_total_malformed_witness :
    isExcluded mmNoBracket "x.js" ([] ++ "[" :: ["x.js"])
      = isExcluded mmNoBracket "x.js" ([] ++ ["x.js"])
    ∧ (isExcluded mmNoBracket "x.js" ([] ++ "[" :: ["x.js"]) = true
        ∨ isExcluded mmNoBracket "x.js" ([] ++ "[" :: ["x.js"]) = false) :=
  isExcluded_total_malformed mmNoBracket "x.js" "[" [] ["x.js"]
    (fun s => by simp [mmNoBracket])

/-- Every result pushed by `processFile` carries the original filename as
its `filePath`. -/
theorem processFile_filePath {σ κ : Type} (env : Env σ κ) (st : σ) (f : String) :
    (processFile env st f).1.filePath = f := by
  unfold processFile
  split <;> rfl

/-- `processFile` ignores the incoming engine state: the unconditional
`eslint.reset()` discards it. -/
theorem processFile_state_indep {σ κ : Type} (env : Env σ κ) (st1 st2 : σ) (f : String) :
    processFile env st1 f = processFile env st2 f := rfl

/-- Every result pushed by the traversal callback for `f` carries `f` as
its `filePath`. -/
theorem handleFile_filePath {σ κ : Type} (env : Env σ κ) (ig : Bool) (files : List String)
    (st : σ) (f : String) :
    ∀ r ∈ (handleFile env ig files st f).1, r.filePath = f := by
  intro r hr
  unfold handleFile at hr
  split at hr
  · split at hr
    · simp only [List.mem_singleton] at hr
      rw [hr]
      exact processFile_filePath env st f
    · split at hr <;> simp_all [ignoredResult]
  · simp_all

/-- No result with `filePath = p` appears in a stretch of the traversal
that never encounters `p`. -/
theorem processList_filter_not_mem {σ κ : Type} (env : Env σ κ) (ig : Bool)
    (files : List String) (p : String) :
    ∀ l, p ∉ l → ∀ st : σ,
      ((processList env ig files st l).1.filter fun r => r.filePath == p) = [] := by
  intro l
  induction l with
  | nil => intro _ st; rfl
  | cons f fs ih =>
    intro hp st
    simp only [List.mem_cons, not_or] at hp
    simp only [processList, List.filter_append, ih hp.2, List.append_nil]
    rw [List.filter_eq_nil_iff]
    intro r hr
    have hf := handleFile_filePath env ig files st f r hr
    simp only [hf, beq_iff_eq]
    exact fun h => hp.1 h.symm

/-- If the traversal callback pushes no result for `p` from any engine
state, the run contains no result whose `filePath` is `p`. -/
theorem processList_filter_handle_nil {σ κ : Type} (env : Env σ κ) (ig : Bool)
    (files : List String) (p : String)
    (hnil : ∀ st : σ, (handleFile env ig files st p).1 = []) :
    ∀ l, ∀ st : σ,
      ((processList env ig files st l).1.filter fun r => r.filePath == p) = [] := by
  intro l
  induction l with
  | nil => intro st; rfl
  | cons f fs ih =>
    intro st
    by_cases hf : f = p
    · subst hf
      simp only [processList, List.filter_append, hnil st, List.nil_append,
        List.filter_nil, ih]
    · simp only [processList, List.filter_append, ih]
      rw [List.append_nil, List.filter_eq_nil_iff]
      intro r hr
      have hfp := handleFile_filePath env ig files st f r hr
      simp only [hfp, beq_iff_eq]
      exact hf

/-- If the traversal callback pushes exactly the results `rs` for `p`
(independently of the engine state) and `p` is discovered exactly once,
the run's results filtered to `filePath = p` are exactly `rs`. -/
theorem processList_filter_count_one {σ κ : Type} (env : Env σ κ) (ig : Bool)
    (files : List String) (p : String) (rs : List LintResult)
    (hone : ∀ st : σ, (handleFile env ig files st p).1 = rs)
    (hrs : ∀ r ∈ rs, r.filePath = p) :
    ∀ l, l.count p = 1 → ∀ st : σ,
      ((processList env ig files st l).1.filter fun r => r.filePath == p) = rs := by
  intro l
  induction l with
  | nil => intro hc; simp at hc
  | cons f fs ih =>
    intro hc st
    by_cases hf : f = p
    · subst hf
      have hfs : f ∉ fs := by
        rw [List.count_cons_self] at hc
        exact List.count_eq_zero.mp (by omega)
      simp only [processList, List.filter_append, hone st,
        processList_filter_not_mem env ig files f fs hfs, List.append_nil]
      rw [List.filter_eq_self]
      intro r hr
      simp [hrs r hr]
    · have hc' : fs.count p = 1 := by
        rwa [List.count_cons_of_ne (fun h => hf h.symm)] at hc
      simp only [processList, List.filter_append, ih hc']
      have hleft : ((handleFile env ig files st f).1.filter fun r => r.filePath == p) = [] := by
        rw [List.filter_eq_nil_iff]
        intro r hr
        have hfp := handleFile_filePath env ig files st f r hr
        simp only [hfp, beq_iff_eq]
        exact hf
      rw [hleft, List.nil_append]

/-- Every collaborator event caused by the traversal callback for `f` is a
reset or concerns `f` itself. -/
theorem handleFile_event_mem {σ κ : Type} (env : Env σ κ) (ig : Bool) (files : List String)
    (st : σ) (f : String) :
    ∀ e ∈ (handleFile env ig files st f).2.2,
      e = EngineEvent.reset ∨ e = EngineEvent.procFile f ∨ e = EngineEvent.verify f := by
  intro e he
  unfold handleFile at he
  split at he
  · split at he
    · unfold processFile at he
      split at he <;> simp_all <;> tauto
    · split at he <;> simp_all
  · simp_all

/-- The traversal callback for one file emits no events, or a File
Processor call followed by a reset, or a File Processor call, a reset and
a verify, always in this order. -/
theorem handleFile_events_shape {σ κ : Type} (env : Env σ κ) (ig : Bool) (files : List String)
    (st : σ) (f : String) :
    (handleFile env ig files st f).2.2 = []
    ∨ (handleFile env ig files st f).2.2 = [EngineEvent.procFile f, EngineEvent.reset]
    ∨ (handleFile env ig files st f).2.2
        = [EngineEvent.procFile f, EngineEvent.reset, EngineEvent.verify f] := by
  unfold handleFile processFile
  split
  · split
    · split <;> simp
    · split <;> simp
  · simp

/-- If the traversal callback emits no events for `p` from any engine
state, then the run's trace never mentions a File Processor call or a
verification of `p`. -/
theorem processList_events_not_mine {σ κ : Type} (env : Env σ κ) (ig : Bool)
    (files : List String) (p : String)
    (hnp : ∀ st : σ, (handleFile env ig files st p).2.2 = []) :
    ∀ l, ∀ st : σ,
      EngineEvent.procFile p ∉ (processList env ig files st l).2.2
      ∧ EngineEvent.verify p ∉ (processList env ig files st l).2.2 := by
  intro l
  induction l with
  | nil => intro st; simp [processList]
  | cons f fs ih =>
    intro st
    have hihl := ih (handleFile env ig files st f).2.1
    by_cases hf : f = p
    · subst hf
      simp only [processList, List.mem_append, hnp st, List.not_mem_nil, false_or]
      exact hihl
    · simp only [processList, List.mem_append, not_or]
      refine ⟨⟨?_, hihl.1⟩, ?_, hihl.2⟩
      · intro hmem
        rcases handleFile_event_mem env ig files st f _ hmem with h | h | h <;> simp_all
      · intro hmem
        rcases handleFile_event_mem env ig files st f _ hmem with h | h | h <;> simp_all

/-- Scanner for the reset/verify discipline: walking the trace with the
previous event at hand, every verify must be immediately preceded by a
reset. -/
def vpAux : Option EngineEvent → List EngineEvent → Bool
  | _, [] => true
  | _, EngineEvent.reset :: rest => vpAux (some EngineEvent.reset) rest
  | _, EngineEvent.procFile f :: rest => vpAux (some (EngineEvent.procFile f)) rest
  | prev, EngineEvent.verify f :: rest =>
      decide (prev = some EngineEvent.reset) && vpAux (some (EngineEvent.verify f)) rest

/-- Every run's trace satisfies the reset/verify discipline, whatever event
preceded it. -/
theorem processList_vpAux {σ κ : Type} (env : Env σ κ) (ig : Bool) (files : List String) :
    ∀ l, ∀ st : σ, ∀ prev, vpAux prev (processList env ig files st l).2.2 = true := by
  intro l
  induction l with
  | nil => intro st prev; rfl
  | cons f fs ih =>
    intro st prev
    simp only [processList]
    rcases handleFile_events_shape env ig files st f with h | h | h <;>
      rw [h] <;> simp [vpAux, ih]

/-- Unfolding of the scanner: in a trace it accepts, a verify at the head
forces the previous event to be a reset, and a verify at any later
position forces the event right before it to be a reset. -/
theorem vpAux_get (tr : List EngineEvent) :
    ∀ prev, vpAux prev tr = true → ∀ i f, tr.get? i = some (EngineEvent.verify f) →
      (i = 0 → prev = some EngineEvent.reset)
      ∧ ∀ j, i = j + 1 → tr.get? j = some EngineEvent.reset := by
  induction tr with
  | nil => intro prev _ i f h; simp at h
  | cons e rest ih =>
    intro prev hvp i f hget
    have hrest : vpAux (some e) rest = true := by
      cases e <;> simp [vpAux] at hvp <;> try exact hvp
      exact hvp.2
    cases i with
    | zero =>
      refine ⟨fun _ => ?_, fun j hj => by omega⟩
      simp only [List.get?] at hget
      obtain rfl : e = EngineEvent.verify f := by injection hget
      simp [vpAux] at hvp
      exact hvp.1
    | succ i2 =>
      have hget2 : rest.get? i2 = some (EngineEvent.verify f) := by
        simpa using hget
      have IH := ih (some e) hrest i2 f hget2
      refine ⟨fun h => by omega, fun j hj => ?_⟩
      obtain rfl : j = i2 := by omega
      cases j with
      | zero =>
        have := IH.1 rfl
        obtain rfl : e = EngineEvent.reset := by injection this
        rfl
      | succ j2 =>
        simpa using IH.2 j2 rfl

/-- With exclusion disabled, each discovered `.js` path triggers a File
Processor call and contributes a result carrying its own path. -/
theorem processList_no_ignore {σ κ : Type} (env : Env σ κ) (files : List String)
    (p : String) (hext : env.extname p = ".js") :
    ∀ l, p ∈ l → ∀ st : σ,
      EngineEvent.procFile p ∈ (processList env false files st l).2.2
      ∧ ((processList env false files st l).1.filter fun r => r.filePath == p) ≠ [] := by
  intro l
  induction l with
  | nil => intro hp; simp at hp
  | cons f fs ih =>
    intro hp st
    rcases List.mem_cons.mp hp with hfp | hfs
    · subst hfp
      have hh : handleFile env false files st p
          = ([(processFile env st p).1], (processFile env st p).2.1,
             (processFile env st p).2.2) := by
        unfold handleFile
        rw [hext]
        simp
      constructor
      · simp only [processList, List.mem_append, hh]
        left
        unfold processFile
        split <;> simp
      · simp only [processList, List.filter_append, hh]
        intro hcontra
        rcases List.append_eq_nil.mp hcontra with ⟨h1, _⟩
        rw [List.filter_eq_nil_iff] at h1
        exact h1 (processFile env st p).1 (List.mem_singleton_self _)
          (by simp [processFile_filePath])
    · have hihl := ih hfs (handleFile env false files st f).2.1
      constructor
      · simp only [processList, List.mem_append]
        exact Or.inr hihl.1
      · simp only [processList, List.filter_append]
        intro hcontra
        exact hihl.2 (List.append_eq_nil.mp hcontra).2

/-- The results and the event trace of a run do not depend on the engine
state it starts from: the unconditional reset before each verification
severs any dependence. -/
theorem processList_state_indep {σ κ : Type} (env : Env σ κ) (ig : Bool)
    (files : List String) :
    ∀ l, ∀ st1 st2 : σ,
      (processList env ig files st1 l).1 = (processList env ig files st2 l).1
      ∧ (processList env ig files st1 l).2.2 = (processList env ig files st2 l).2.2 := by
  intro l
  induction l with
  | nil => intro st1 st2; exact ⟨rfl, rfl⟩
  | cons f fs ih =>
    intro st1 st2
    simp only [processList]
    unfold handleFile
    split
    · split
      · rw [processFile_state_indep env st1 st2 f]
        exact ⟨rfl, rfl⟩
      · split <;>
          exact ⟨by rw [(ih st1 st2).1], by rw [(ih st1 st2).2]⟩
    · exact ⟨by rw [(ih st1 st2).1], by rw [(ih st1 st2).2]⟩

/-- The rule-loading loop succeeds exactly when every directory loads. -/
theorem loadRulesList_ok_iff {ε : Type} (load : String → Except ε Unit) :
    ∀ l, loadRulesList load l = Except.ok () ↔ ∀ d ∈ l, load d = Except.ok () := by
  intro l
  induction l with
  | nil => simp [loadRulesList]
  | cons d ds ih =>
    simp only [loadRulesList, List.forall_mem_cons]
    cases hd : load d with
    | ok u => cases u; simp [hd, ih]
    | error e => simp [hd]

/-- An error of the rule-loading loop is the load error of one of the
directories. -/
theorem loadRulesList_error_mem {ε : Type} (load : String → Except ε Unit) :
    ∀ l e, loadRulesList load l = Except.error e → ∃ d ∈ l, load d = Except.error e := by
  intro l
  induction l with
  | nil => intro e h; simp [loadRulesList] at h
  | cons d ds ih =>
    intro e h
    rw [loadRulesList] at h
    cases hd : load d with
    | ok u =>
      rw [hd] at h
      obtain ⟨d2, hd2, he⟩ := ih e h
      exact ⟨d2, List.mem_cons_of_mem _ hd2, he⟩
    | error e2 =>
      rw [hd] at h
      injection h with h2
      subst h2
      exact ⟨d, List.mem_cons_self _ _, hd⟩

/-- A failing directory anywhere in the list makes the rule-loading loop
fail. -/
theorem loadRulesList_exists_error {ε : Type} (load : String → Except ε Unit) :
    ∀ l, (∃ d ∈ l, ∃ e, load d = Except.error e) →
      ∃ e, loadRulesList load l = Except.error e := by
  intro l
  induction l with
  | nil => intro h; simp at h
  | cons d ds ih =>
    intro h
    cases hd : load d with
    | error e => exact ⟨e, by rw [loadRulesList, hd]⟩
    | ok u =>
      obtain ⟨d2, hd2, e2, he2⟩ := h
      rcases List.mem_cons.mp hd2 with rfl | hmem
      · rw [hd] at he2; cases he2
      · obtain ⟨e, he⟩ := ih ⟨d2, hmem, e2, he2⟩
        exact ⟨e, by rw [loadRulesList, hd]; exact he⟩

/-- C7: the extension filter is total — for every path whose extension is
not exactly `.js` (single fixed, case-sensitive comparison), the run
produces no LintResult carrying that path. -/
theorem executeOnFiles_extension_filter {σ κ : Type} (env : Env σ κ) (opts : CLIOptions)
    (st : σ) (files : List String) (p : String) (hext : env.extname p ≠ ".js") :
    ((executeOnFiles env opts st files).1.results.filter fun r => r.filePath == p) = [] := by
  have hnil : ∀ st2 : σ, (handleFile env opts.ignore files st2 p).1 = [] := by
    intro st2
    unfold handleFile
    have hb : (env.extname p == ".js") = false := beq_eq_false_iff_ne.mpr hext
    rw [hb]
    simp
  exact processList_filter_handle_nil env opts.ignore files p hnil (env.expand files) st

/-- C10: a path explicitly named in `inputPaths` whose extension is not
exactly `.js` produces no LintResult of any kind — no fatal missing-file
message and no ignore advisory — and the File Processor / Verification
Engine are never invoked for it: it is silently dropped. -/
theorem executeOnFiles_explicit_non_js_dropped {σ κ : Type} (env : Env σ κ)
    (opts : CLIOptions) (st : σ) (files : List String) (p : String)
    (hext : env.extname p ≠ ".js") (_hp : files.contains p = true) :
    ((executeOnFiles env opts st files).1.results.filter fun r => r.filePath == p) = []
    ∧ EngineEvent.procFile p ∉ (executeOnFiles env opts st files).2.2
    ∧ EngineEvent.verify p ∉ (executeOnFiles env opts st files).2.2 := by
  have hb : (env.extname p == ".js") = false := beq_eq_false_iff_ne.mpr hext
  have hnil : ∀ st2 : σ, (handleFile env opts.ignore files st2 p).1 = [] := by
    intro st2; unfold handleFile; rw [hb]; simp
  have hnp : ∀ st2 : σ, (handleFile env opts.ignore files st2 p).2.2 = [] := by
    intro st2; unfold handleFile; rw [hb]; simp
  have hev := processList_events_not_mine env opts.ignore files p hnp (env.expand files) st
  exact ⟨processList_filter_handle_nil env opts.ignore files p hnil (env.expand files) st,
    hev.1, hev.2⟩

/-- C8: with exclusion disabled (`ignore` option false), no discovered
`.js` path is filtered by the exclusion set — the File Processor is
invoked for it and a result carrying its path is reported, regardless of
any exclusion-pattern match. -/
theorem executeOnFiles_ignore_disabled {σ κ : Type} (env : Env σ κ) (opts : CLIOptions)
    (st : σ) (files : List String) (p : String)
    (hig : opts.ignore = false) (hext : env.extname p = ".js")
    (hp : p ∈ env.expand files) :
    EngineEvent.procFile p ∈ (executeOnFiles env opts st files).2.2
    ∧ ((executeOnFiles env opts st files).1.results.filter fun r => r.filePath == p) ≠ [] := by
  simp only [executeOnFiles, hig]
  exact processList_no_ignore env files p hext (env.expand files) hp st

/-- C5: a second invocation of `executeOnFiles` with the same inputs and
the same collaborators — starting from whatever engine state the first
invocation left behind — returns a structurally equal RunReport (and an
equal event trace): results depend on the engine state only through the
reset performed before each verification. -/
theorem executeOnFiles_idempotent {σ κ : Type} (env : Env σ κ) (opts : CLIOptions)
    (st : σ) (files : List String) :
    (executeOnFiles env opts ((executeOnFiles env opts st files).2.1) files).1
        = (executeOnFiles env opts st files).1
    ∧ (executeOnFiles env opts ((executeOnFiles env opts st files).2.1) files).2.2
        = (executeOnFiles env opts st files).2.2 := by
  have h := processList_state_indep env opts.ignore files (env.expand files)
      ((executeOnFiles env opts st files).2.1) st
  exact ⟨congrArg RunReport.mk h.1, h.2⟩

/-- C6: in every run, each verification is immediately preceded by a reset
of the engine, so in particular every verify has an earlier reset with no
other verify in between. -/
theorem executeOnFiles_reset_before_verify {σ κ : Type} (env : Env σ κ) (opts : CLIOptions)
    (st : σ) (files : List String) (i : Nat) (f : String)
    (hget : (executeOnFiles env opts st files).2.2.get? i = some (EngineEvent.verify f)) :
    ∃ j, j < i ∧ (executeOnFiles env opts st files).2.2.get? j = some EngineEvent.reset
      ∧ ∀ k g, j < k → k < i →
          (executeOnFiles env opts st files).2.2.get? k ≠ some (EngineEvent.verify g) := by
  have hvp := processList_vpAux env opts.ignore files (env.expand files) st none
  have H := vpAux_get (processList env opts.ignore files st (env.expand files)).2.2
      none hvp i f hget
  cases i with
  | zero => exact absurd (H.1 rfl) (by simp)
  | succ j =>
    exact ⟨j, by omega, H.2 j rfl, fun k g hk1 hk2 => absurd hk2 (by omega)⟩

/-- C1: asymmetric exclusion reporting. With exclusion enabled, for a
discovered `.js` path matching the exclusion set: if it was named verbatim
in the original `inputPaths` (and is discovered once), exactly one
LintResult is reported for it — the single non-fatal ignore advisory — and
the File Processor / Verification Engine are never invoked for it; if it
was reached only via expansion (not named in `inputPaths`), zero
LintResults are produced for it. -/
theorem executeOnFiles_excluded_asymmetry {σ κ : Type} (env : Env σ κ) (opts : CLIOptions)
    (st : σ) (files : List String) (p : String)
    (hig : opts.ignore = true)
    (hext : env.extname p = ".js")
    (hexc : isExcluded env.mm p env.exclusions = true) :
    (files.contains p = true → (env.expand files).count p = 1 →
      ((executeOnFiles env opts st files).1.results.filter fun r => r.filePath == p)
          = [ignoredResult p]
        ∧ EngineEvent.procFile p ∉ (executeOnFiles env opts st files).2.2
        ∧ EngineEvent.verify p ∉ (executeOnFiles env opts st files).2.2)
    ∧ (files.contains p = false →
      ((executeOnFiles env opts st files).1.results.filter fun r => r.filePath == p) = []) := by
  have hcondFalse : (!opts.ignore || !isExcluded env.mm p env.exclusions) = false := by
    rw [hig, hexc]
    rfl
  constructor
  · intro hcon hcount
    have hmem : p ∈ files := by simpa using hcon
    have hnp : ∀ st2 : σ, (handleFile env opts.ignore files st2 p).2.2 = [] := by
      intro st2
      unfold handleFile
      rw [hext, hcondFalse]
      simp [hmem]
    have hone : ∀ st2 : σ, (handleFile env opts.ignore files st2 p).1 = [ignoredResult p] := by
      intro st2
      unfold handleFile
      rw [hext, hcondFalse]
      simp [hmem]
    have hev := processList_events_not_mine env opts.ignore files p hnp (env.expand files) st
    refine ⟨?_, hev.1, hev.2⟩
    exact processList_filter_count_one env opts.ignore files p [ignoredResult p] hone
      (by simp [ignoredResult]) (env.expand files) hcount st
  · intro hcon
    have hnmem : p ∉ files := by simpa using hcon
    have hnil : ∀ st2 : σ, (handleFile env opts.ignore files st2 p).1 = [] := by
      intro st2
      unfold handleFile
      rw [hext, hcondFalse]
      simp [hnmem]
    exact processList_filter_handle_nil env opts.ignore files p hnil (env.expand files) st

/-- C4: for an input path with the `.js` extension at which no file
exists, `processFile` returns a result under the original input string
whose single message is fatal and embeds the literal resolved path; when
such a path heads the discovered list, the run reports exactly that
result first and proceeds with the remaining files. -/
theorem executeOnFiles_missing_file {σ κ : Type} (env : Env σ κ) (opts : CLIOptions)
    (st : σ) (files : List String) (p : String) (rest : List String)
    (hexp : env.expand files = p :: rest)
    (hmiss : env.existsSync (env.resolve p) = false)
    (hext : env.extname p = ".js")
    (hcond : opts.ignore = false ∨ isExcluded env.mm p env.exclusions = false) :
    (processFile env st p).1
        = { filePath := p,
            messages := [{ fatal := true, message := missingMessage (env.resolve p) }] }
    ∧ (∃ a b, missingMessage (env.resolve p) = a ++ env.resolve p ++ b)
    ∧ (executeOnFiles env opts st files).1.results
        = { filePath := p,
            messages := [{ fatal := true, message := missingMessage (env.resolve p) }] }
          :: (processList env opts.ignore files env.resetState rest).1 := by
  have hpf : processFile env st p
      = ({ filePath := p,
           messages := [{ fatal := true, message := missingMessage (env.resolve p) }] },
         env.resetState, [EngineEvent.procFile p, EngineEvent.reset]) := by
    unfold processFile
    rw [hmiss]
    simp
  have hcondb : (!opts.ignore || !isExcluded env.mm p env.exclusions) = true := by
    rcases hcond with h | h <;> simp [h]
  refine ⟨by rw [hpf], ⟨"Could not find file at '", "'.", rfl⟩, ?_⟩
  show (processList env opts.ignore files st (env.expand files)).1 = _
  rw [hexp, processList]
  have hhf : handleFile env opts.ignore files st p
      = ([(processFile env st p).1], (processFile env st p).2.1, (processFile env st p).2.2) := by
    unfold handleFile
    rw [hext, hcondb]
    simp
  rw [hhf, hpf]
  simp

/-- C9: construction of the engine succeeds exactly when every directory
of `rulePaths` loads; a construction error is the load error of one of the
directories, and any failing directory makes construction fail, so no
instance is produced. -/
theorem CLIEngineConstruct_rule_failure {ε : Type} (load : String → Except ε Unit)
    (opts : CLIOptions) :
    (CLIEngineConstruct load opts = Except.ok opts
        ↔ ∀ d ∈ opts.rulePaths, load d = Except.ok ())
    ∧ (∀ e, CLIEngineConstruct load opts = Except.error e →
        ∃ d ∈ opts.rulePaths, load d = Except.error e)
    ∧ ((∃ d ∈ opts.rulePaths, ∃ e, load d = Except.error e) →
        ∃ e, CLIEngineConstruct load opts = Except.error e) := by
  refine ⟨⟨fun h => ?_, fun h => ?_⟩, fun e h => ?_, fun h => ?_⟩
  · unfold CLIEngineConstruct at h
    cases hl : loadRulesList load opts.rulePaths with
    | ok u => cases u; exact (loadRulesList_ok_iff load opts.rulePaths).mp hl
    | error e => rw [hl] at h; cases h
  · have hl := (loadRulesList_ok_iff load opts.rulePaths).mpr h
    unfold CLIEngineConstruct
    rw [hl]
  · unfold CLIEngineConstruct at h
    cases hl : loadRulesList load opts.rulePaths with
    | ok u => rw [hl] at h; cases h
    | error e2 =>
      rw [hl] at h
      injection h with h2
      subst h2
      exact loadRulesList_error_mem load opts.rulePaths e2 hl
  · obtain ⟨e, hl⟩ := loadRulesList_exists_error load opts.rulePaths h
    exact ⟨e, by unfold CLIEngineConstruct; rw [hl]⟩

/-- A concrete collaborator environment for exercising the engine:
`a.js` exists and verifies with one style message, `miss.js` is missing,
`ig.js` matches the single exclusion pattern, `b.txt` and `c.JS` do not
have the analyzed extension; paths resolve under `/abs/` and the tree
walker passes input paths through unchanged. -/
def testEnv : Env Unit Unit where
  mm := litMM
  extname := fun s =>
    if s = "a.js" then ".js" else if s = "miss.js" then ".js"
    else if s = "ig.js" then ".js" else if s = "b.txt" then ".txt"
    else if s = "c.JS" then ".JS" else ""
  resolve := fun s => "/abs/" ++ s
  existsSync := fun s => s == "/abs/a.js"
  readFile := fun _ => "var x;"
  getConfig := fun _ => ()
  exclusions := ["ig.js"]
  resetState := ()
  verify := fun _ _ _ _ => ([{ fatal := false, message := "m1" }], ())
  expand := fun l => l

/-- Witness for C1: the explicitly requested excluded file `ig.js` gets
exactly the advisory result and never reaches the File Processor. -/
theorem executeOnFiles_excluded_asymmetry_witness :
    ((executeOnFiles testEnv {} () ["ig.js"]).1.results.filter fun r => r.filePath == "ig.js")
        = [ignoredResult "ig.js"]
    ∧ EngineEvent.procFile "ig.js" ∉ (executeOnFiles testEnv {} () ["ig.js"]).2.2
    ∧ EngineEvent.verify "ig.js" ∉ (executeOnFiles testEnv {} () ["ig.js"]).2.2 :=
  (executeOnFiles_excluded_asymmetry testEnv {} () ["ig.js"] "ig.js" rfl (by decide)
      (by decide)).1 (by decide) (by decide)

/-- Witness for C4: running on the single missing path `miss.js` reports
one fatal result under the original input string. -/
theorem executeOnFiles_missing_file_witness :
    (processFile testEnv () "miss.js").1
        = { filePath := "miss.js",
            messages := [{ fatal := true, message := missingMessage (testEnv.resolve "miss.js") }] }
    ∧ (∃ a b, missingMessage (testEnv.resolve "miss.js")
        = a ++ testEnv.resolve "miss.js" ++ b)
    ∧ (executeOnFiles testEnv {} () ["miss.js"]).1.results
        = { filePath := "miss.js",
            messages := [{ fatal := true, message := missingMessage (testEnv.resolve "miss.js") }] }
          :: (processList testEnv ({} : CLIOptions).ignore ["miss.js"] testEnv.resetState []).1 :=
  executeOnFiles_missing_file testEnv {} () ["miss.js"] "miss.js" [] rfl (by decide) (by decide)
    (Or.inr (by decide))

/-- Witness for C6: in the run over the existing file `a.js`, the verify
at trace position 2 is preceded by a reset with no verify in between. -/
theorem executeOnFiles_reset_before_verify_witness :
    ∃ j, j < 2 ∧ (executeOnFiles testEnv {} () ["a.js"]).2.2.get? j = some EngineEvent.reset
      ∧ ∀ k g, j < k → k < 2 →
          (executeOnFiles testEnv {} () ["a.js"]).2.2.get? k ≠ some (EngineEvent.verify g) :=
  executeOnFiles_reset_before_verify testEnv {} () ["a.js"] 2 "a.js" (by decide)

/-- Witness for C7: the discovered path `b.txt` yields no result. -/
theorem executeOnFiles_extension_filter_witness :
    ((executeOnFiles testEnv {} () ["b.txt"]).1.results.filter
        fun r => r.filePath == "b.txt") = [] :=
  executeOnFiles_extension_filter testEnv {} () ["b.txt"] "b.txt" (by decide)

/-- Witness for C8: with the ignore option disabled, the excluded `ig.js`
is still processed and reported. -/
theorem executeOnFiles_ignore_disabled_witness :
    EngineEvent.procFile "ig.js" ∈ (executeOnFiles testEnv { ignore := false } () ["ig.js"]).2.2
    ∧ ((executeOnFiles testEnv { ignore := false } () ["ig.js"]).1.results.filter
        fun r => r.filePath == "ig.js") ≠ [] :=
  executeOnFiles_ignore_disabled testEnv { ignore := false } () ["ig.js"] "ig.js" rfl
    (by decide) (by decide)

/-- Witness for C10: the explicitly requested `c.JS` (missing and with an
uppercase extension) is silently dropped. -/
theorem executeOnFiles_explicit_non_js_dropped_witness :
    ((executeOnFiles testEnv {} () ["c.JS"]).1.results.filter fun r => r.filePath == "c.JS") = []
    ∧ EngineEvent.procFile "c.JS" ∉ (executeOnFiles testEnv {} () ["c.JS"]).2.2
    ∧ EngineEvent.verify "c.JS" ∉ (executeOnFiles testEnv {} () ["c.JS"]).2.2 :=
  executeOnFiles_explicit_non_js_dropped testEnv {} () ["c.JS"] "c.JS" (by decide) (by decide)

/-- A rule loader for which only the directory `bad` fails. -/
def loadW : String → Except String Unit := fun d =>
  if d = "bad" then Except.error "boom" else Except.ok ()

/-- Witness for C9: with a failing rules directory in `rulePaths`,
construction returns an error and no instance is produced. -/
theorem CLIEngineConstruct_rule_failure_witness :
    ∃ e, CLIEngineConstruct loadW { rulePaths := ["good", "bad"] } = Except.error e :=
  (CLIEngineConstruct_rule_failure loadW { rulePaths := ["good", "bad"] }).2.2
    ⟨"bad", by simp, "boom", by simp [loadW]⟩
